import Mathlib

/-!
Verification of `ffmpeg-fastapi` (`app/services/ffmpeg_service.py` and the
route handlers in `app/routers/`).

The Python service is shallowly embedded here.  Conventions:

* Python `str` values are embedded as `List Char` (or `String` where only
  literal comparison is needed); whitespace handling models the ASCII
  whitespace set `" \t\n\x0b\x0c\r"` used by `textwrap` (the module
  deliberately restricts itself to US-ASCII whitespace).
* Python `float` arithmetic is embedded as exact rational arithmetic `ℚ`;
  Python's `round` (banker's rounding, ties to even) is `pyRound`.
* Fallible code is embedded with `Option`/`Except`; `asyncio` subprocess
  execution is embedded by an outcome oracle passed as a parameter.
-/

namespace FFS

/-! ## Python primitives -/

/-- The ASCII whitespace set of `textwrap._whitespace` (`"\t\n\x0b\x0c\r "`);
also used to model `str.split()` / `str.strip()` (restricted to ASCII). -/
def isWs (c : Char) : Bool :=
  c = ' ' ∨ c = '\t' ∨ c = '\n' ∨ c = '\x0b' ∨ c = '\x0c' ∨ c = '\r'

/-- ASCII model of `str.lower` on a single character. -/
def pyLowerChar (c : Char) : Char :=
  if 'A' ≤ c ∧ c ≤ 'Z' then Char.ofNat (c.toNat + 32) else c

/-- ASCII model of `str.upper` on a single character. -/
def pyUpperChar (c : Char) : Char :=
  if 'a' ≤ c ∧ c ≤ 'z' then Char.ofNat (c.toNat - 32) else c

/-- Python `str.lower()`. -/
def pyLower (s : List Char) : List Char := s.map pyLowerChar

/-- Python `str.strip()`: remove leading and trailing whitespace. -/
def pyStrip (s : List Char) : List Char :=
  ((s.dropWhile isWs).reverse.dropWhile isWs).reverse

/-- Python `round` on an exact rational: round half to even. -/
def pyRound (q : ℚ) : ℤ :=
  if q - ⌊q⌋ < 1/2 then ⌊q⌋
  else if 1/2 < q - ⌊q⌋ then ⌊q⌋ + 1
  else if ⌊q⌋ % 2 = 0 then ⌊q⌋ else ⌊q⌋ + 1

theorem pyRound_floor_le (q : ℚ) : ⌊q⌋ ≤ pyRound q := by
  unfold pyRound
  split_ifs <;> omega

theorem pyRound_le_floor_add_one (q : ℚ) : pyRound q ≤ ⌊q⌋ + 1 := by
  unfold pyRound
  split_ifs <;> omega

theorem pyRound_mono {p q : ℚ} (h : p ≤ q) : pyRound p ≤ pyRound q := by
  rcases lt_or_eq_of_le (Int.floor_le_floor h) with hf | hf
  · calc pyRound p ≤ ⌊p⌋ + 1 := pyRound_le_floor_add_one p
      _ ≤ ⌊q⌋ := by omega
      _ ≤ pyRound q := pyRound_floor_le q
  · unfold pyRound
    rw [hf]
    have hpq : p - (⌊q⌋ : ℚ) ≤ q - (⌊q⌋ : ℚ) := by linarith
    split_ifs <;> first | omega | linarith

theorem pyRound_nonneg {q : ℚ} (h : 0 ≤ q) : 0 ≤ pyRound q := by
  have := pyRound_floor_le q
  have : (0 : ℤ) ≤ ⌊q⌋ := by positivity
  omega

theorem pyRound_intCast (n : ℤ) : pyRound ((n : ℚ)) = n := by
  unfold pyRound
  rw [Int.floor_intCast]
  simp

theorem pyRound_natCast (n : ℕ) : pyRound ((n : ℚ)) = n := by
  have := pyRound_intCast (n : ℤ)
  rwa [Int.cast_natCast] at this

/-! ## List helper lemmas for the string model -/

theorem dropWhile_head_false {p : Char → Bool} {l : List Char} {c : Char}
    (h : (l.dropWhile p).head? = some c) : p c = false := by
  induction l with
  | nil => simp at h
  | cons a t ih =>
    by_cases ha : p a
    · rw [List.dropWhile_cons_of_pos ha] at h
      exact ih h
    · rw [List.dropWhile_cons_of_neg ha] at h
      simp at h
      rw [← h]
      exact Bool.of_not_eq_true ha

theorem dropWhile_eq_self {p : Char → Bool} {l : List Char}
    (h : ∀ c, l.head? = some c → p c = false) : l.dropWhile p = l := by
  cases l with
  | nil => rfl
  | cons a t =>
    have := h a rfl
    simp [List.dropWhile_cons, this]

theorem dropWhile_append_all {p : Char → Bool} {l₁ l₂ : List Char}
    (h : ∀ c ∈ l₁, p c = true) :
    (l₁ ++ l₂).dropWhile p = l₂.dropWhile p := by
  induction l₁ with
  | nil => rfl
  | cons a t ih =>
    have ha := h a (by simp)
    simp only [List.cons_append, List.dropWhile_cons_of_pos ha]
    exact ih (fun c hc => h c (by simp [hc]))

theorem takeWhile_append_all {p : Char → Bool} {l₁ l₂ : List Char}
    (h : ∀ c ∈ l₁, p c = true) :
    (l₁ ++ l₂).takeWhile p = l₁ ++ l₂.takeWhile p := by
  induction l₁ with
  | nil => rfl
  | cons a t ih =>
    have ha := h a (by simp)
    simp only [List.cons_append, List.takeWhile_cons_of_pos ha]
    rw [ih (fun c hc => h c (by simp [hc]))]

theorem getLast?_append_right {l₁ l₂ : List Char} (h : l₂ ≠ []) :
    (l₁ ++ l₂).getLast? = l₂.getLast? := by
  induction l₁ with
  | nil => rfl
  | cons a t ih =>
    rw [List.cons_append, List.getLast?_cons, ih]
    cases l₂ with
    | nil => exact absurd rfl h
    | cons b u => simp [List.getLast?_cons]

theorem mem_dropWhile {p : Char → Bool} {l : List Char} {c : Char}
    (h : c ∈ l.dropWhile p) : c ∈ l :=
  (List.dropWhile_sublist p).mem h

/-- Stripping only removes characters, never adds them. -/
theorem mem_pyStrip {s : List Char} {c : Char} (h : c ∈ pyStrip s) : c ∈ s := by
  unfold pyStrip at h
  rw [List.mem_reverse] at h
  have h1 := mem_dropWhile h
  rw [List.mem_reverse] at h1
  exact mem_dropWhile h1

/-- A string whose first and last characters are not whitespace is unchanged
by `str.strip()`. -/
theorem pyStrip_eq_self {s : List Char}
    (hh : ∀ c, s.head? = some c → isWs c = false)
    (hl : ∀ c, s.getLast? = some c → isWs c = false) :
    pyStrip s = s := by
  unfold pyStrip
  rw [dropWhile_eq_self hh]
  rw [dropWhile_eq_self (by
    intro c hc
    rw [List.head?_reverse] at hc
    exact hl c hc)]
  exact List.reverse_reverse s

theorem pyStrip_head_not_ws {s : List Char} {c : Char}
    (h : (pyStrip s).head? = some c) : isWs c = false := by
  unfold pyStrip at h
  rcases hB : ((s.dropWhile isWs).reverse.dropWhile isWs) with _ | ⟨b, B⟩
  · rw [hB] at h
    simp at h
  · rw [hB] at h
    -- the head of the final reverse is the last element of `b :: B`, which is
    -- the last element of `(s.dropWhile isWs).reverse`, i.e. the head of
    -- `s.dropWhile isWs`.
    have hdec := List.takeWhile_append_dropWhile isWs (s.dropWhile isWs).reverse
    rw [List.head?_reverse] at h
    have hlast : (s.dropWhile isWs).reverse.getLast? = some c := by
      rw [← hdec, getLast?_append_right (by rw [hB]; simp), hB, ← h]
    rw [List.getLast?_reverse] at hlast
    exact dropWhile_head_false hlast

theorem pyStrip_getLast_not_ws {s : List Char} {c : Char}
    (h : (pyStrip s).getLast? = some c) : isWs c = false := by
  unfold pyStrip at h
  rw [List.getLast?_reverse] at h
  exact dropWhile_head_false h

/-- Python `str.strip()` is idempotent. -/
theorem pyStrip_idem (s : List Char) : pyStrip (pyStrip s) = pyStrip s := by
  exact pyStrip_eq_self (fun c hc => pyStrip_head_not_ws hc)
    (fun c hc => pyStrip_getLast_not_ws hc)

/-! ## Caption style resolution
(`FFMPEGService._resolve_font_size_from_height`, `_resolve_border_width`,
`_resolve_box_padding`).  Constants from the module header:
`DEFAULT_CAPTION_FONT_RATIO = 0.016`, min/max font size 8/32, border factor
`0.12`, min/max border 2/10. -/

/-- Embeds `FFMPEGService._resolve_font_size_from_height`: an explicitly supplied
font size is returned unchanged; otherwise `int(round(height * 0.016))`
clamped into `[8, 32]` by `max(8, min(scaled, 32))`. -/
def resolve_font_size_from_height (height : ℕ) (font_size : Option ℤ) : ℤ :=
  match font_size with
  | some s => s
  | none => max 8 (min (pyRound ((height : ℚ) * (16/1000))) 32)

/-- Embeds `FFMPEGService._resolve_border_width`:
`max(2, min(int(round(font_size * 0.12)), 10))`. -/
def resolve_border_width (font_size : ℤ) : ℤ :=
  max 2 (min (pyRound ((font_size : ℚ) * (12/100))) 10)

/-- Embeds `FFMPEGService._resolve_box_padding`:
`max(10, min(int(round(font_size * 0.7)), 20))`. -/
def resolve_box_padding (font_size : ℤ) : ℤ :=
  max 10 (min (pyRound ((font_size : ℚ) * (7/10))) 20)

/-- The `font_size` Form field of `add_video_captions`
(`app/routers/captions.py` line 98): `Form(default=None, ge=8, le=72)`.
A supplied value is accepted exactly when it lies in `[8, 72]`. -/
def caption_font_size_field_ok (s : ℤ) : Prop := 8 ≤ s ∧ s ≤ 72

/-! ## Color codec (`FFMPEGService._ass_color`, `_parse_alpha`,
`_split_color_alpha`, `_ass_color_with_alpha`) -/

/-- The character set of `"0123456789abcdef"` used by the
`all(c in "0123456789abcdef" for c in color)` check in `_ass_color`. -/
def hexLowerChars : List Char := "0123456789abcdef".data

/-- Uppercase hexadecimal digit characters (image of the lowercase set under
`str.upper`). -/
def hexUpChars : List Char := "0123456789ABCDEF".data

/-- The named-color table of `_ass_color`. -/
def namedColor (c : List Char) : Option (List Char) :=
  if c = ['w', 'h', 'i', 't', 'e'] then some ['f', 'f', 'f', 'f', 'f', 'f']
  else if c = ['b', 'l', 'a', 'c', 'k'] then some ['0', '0', '0', '0', '0', '0']
  else if c = ['r', 'e', 'd'] then some ['f', 'f', '0', '0', '0', '0']
  else if c = ['g', 'r', 'e', 'e', 'n'] then some ['0', '0', 'f', 'f', '0', '0']
  else if c = ['b', 'l', 'u', 'e'] then some ['0', '0', '0', '0', 'f', 'f']
  else if c = ['y', 'e', 'l', 'l', 'o', 'w'] then some ['f', 'f', 'f', 'f', '0', '0']
  else none

/-- The tail of `_ass_color`: `r, g, b = hex[0:2], hex[2:4], hex[4:6]` and
the result is `f"&H00{b}{g}{r}"` with the slices uppercased. -/
def assOfHex (hex : List Char) : List Char :=
  ['&', 'H', '0', '0'] ++ ((hex.drop 4).take 2).map pyUpperChar
    ++ ((hex.drop 2).take 2).map pyUpperChar ++ (hex.take 2).map pyUpperChar

/-- Embeds `FFMPEGService._ass_color(color, fallback)`: convert a named or
6-hex-digit color (optionally `#`-prefixed) to ASS `&H00BBGGRR` form;
anything else returns the fallback. -/
def ass_color (color fallback : List Char) : List Char :=
  if color = [] then fallback
  else
    let c := pyLower (pyStrip color)
    match namedColor c with
    | some hex => assOfHex hex
    | none =>
      if c.take 1 = ['#'] ∧ c.length = 7 then assOfHex (c.drop 1)
      else if c.length = 6 ∧ ∀ ch ∈ c, ch ∈ hexLowerChars then assOfHex c
      else fallback

/-- The numeric core of `_parse_alpha` once `float(value)` has succeeded on a
non-percent string with value `a`: values in `(1, 100]` are divided by 100,
then anything outside `[0, 1]` yields `None`. -/
def parse_alpha_num (a : ℚ) : Option ℚ :=
  let a' := if 1 < a ∧ a ≤ 100 then a / 100 else a
  if 0 ≤ a' ∧ a' ≤ 1 then some a' else none

/-- Embeds `FFMPEGService._parse_alpha(value)`.  `floatOf` is an oracle for Python
`float(...)` (`none` models `ValueError`); percent strings return
`float(value[:-1]) / 100` immediately with no range check. -/
def parse_alpha (floatOf : List Char → Option ℚ) (value : List Char) : Option ℚ :=
  if value = [] then none
  else
    let v := pyStrip value
    if v.getLast? = some '%' then (floatOf v.dropLast).map (· / 100)
    else
      match floatOf v with
      | none => none
      | some a => parse_alpha_num a

/-- Embeds `FFMPEGService._split_color_alpha(color)`: split `'base@alpha'` at the
last `'@'` (`str.rsplit("@", 1)`) into the stripped base and the parsed
alpha. -/
def split_color_alpha (floatOf : List Char → Option ℚ) (color : List Char) :
    List Char × Option ℚ :=
  if color = [] then ([], none)
  else
    let c := pyStrip color
    if '@' ∈ c then
      let base := ((c.reverse.dropWhile (· != '@')).drop 1).reverse
      let av := (c.reverse.takeWhile (· != '@')).reverse
      (pyStrip base, parse_alpha floatOf av)
    else (c, none)

/-- Uppercase hexadecimal digit for `n < 16`, as produced by Python's
`"{:02X}".format`. -/
def hexUpDigit (n : ℕ) : Char := hexUpChars.getD n '0'

/-- Formats `f"{n:02X}"` for `n ≤ 255` (the alpha byte is clamped into `[0, 255]`
before formatting). -/
def toHex2 (n : ℕ) : List Char := [hexUpDigit (n / 16), hexUpDigit (n % 16)]

/-- Embeds `FFMPEGService._ass_color_with_alpha(color, fallback)`: resolve the base
color, then overwrite the alpha byte with `f"&H{alpha_byte:02X}"` where
`alpha_byte = int(round(clamp(alpha) * 255))`. -/
def ass_color_with_alpha (floatOf : List Char → Option ℚ)
    (color fallback : List Char) : List Char :=
  match split_color_alpha floatOf color with
  | (base, none) => ass_color base fallback
  | (base, some a) =>
    let cv := ass_color base fallback
    let a' := max 0 (min a 1)
    let alphaByte := (pyRound (a' * 255)).toNat
    '&' :: 'H' :: (toHex2 alphaByte ++ cv.drop 4)

end FFS

namespace FFS

/-! ## Claim C5 -/

/-- Claim C5: for every `(width, height)` pair with `height ≥ 500` and no
user-supplied font size, the resolved caption style has `font_size_px` in
`[8, 32]`, `border_width_px` in `[2, 10]`, and `box_padding_px` in
`[10, 20]`. -/
theorem caption_style_bounds (width height : ℕ) (h : 500 ≤ height) :
    (8 ≤ resolve_font_size_from_height height none ∧
      resolve_font_size_from_height height none ≤ 32) ∧
    (2 ≤ resolve_border_width (resolve_font_size_from_height height none) ∧
      resolve_border_width (resolve_font_size_from_height height none) ≤ 10) ∧
    (10 ≤ resolve_box_padding (resolve_font_size_from_height height none) ∧
      resolve_box_padding (resolve_font_size_from_height height none) ≤ 20) := by
  have _hw : 0 ≤ width := Nat.zero_le _
  have _hh : 500 ≤ height := h
  refine ⟨⟨?_, ?_⟩, ⟨?_, ?_⟩, ⟨?_, ?_⟩⟩
  · exact le_max_left _ _
  · exact max_le (by norm_num) (min_le_right _ _)
  · exact le_max_left _ _
  · exact max_le (by norm_num) (min_le_right _ _)
  · exact le_max_left _ _
  · exact max_le (by norm_num) (min_le_right _ _)

/-- Witness for C5 at `width = 1920`, `height = 1080`. -/
theorem caption_style_bounds_witness :
    (500 ≤ 1080) ∧
    ((8 ≤ resolve_font_size_from_height 1080 none ∧
      resolve_font_size_from_height 1080 none ≤ 32) ∧
    (2 ≤ resolve_border_width (resolve_font_size_from_height 1080 none) ∧
      resolve_border_width (resolve_font_size_from_height 1080 none) ≤ 10) ∧
    (10 ≤ resolve_box_padding (resolve_font_size_from_height 1080 none) ∧
      resolve_box_padding (resolve_font_size_from_height 1080 none) ≤ 20)) :=
  ⟨by norm_num, caption_style_bounds 1920 1080 (by norm_num)⟩

/-! ## Claim C10 -/

/-- Claim C10: for every explicitly supplied font size the resolution
returns exactly the supplied value with no clamping, and the request schema
accepts explicit values up to 72, so resolved sizes above 32 can reach the
subtitle script. -/
theorem explicit_font_size_unclamped :
    (∀ (height : ℕ) (s : ℤ),
      resolve_font_size_from_height height (some s) = s) ∧
    (∃ s : ℤ, caption_font_size_field_ok s ∧ 32 < s ∧
      ∀ height : ℕ, resolve_font_size_from_height height (some s) = s) := by
  refine ⟨fun _ _ => rfl, 72, ⟨by norm_num, by norm_num⟩, by norm_num, fun _ => rfl⟩

end FFS


namespace FFS

/-! ## Facts about the hexadecimal character sets (finite checks) -/

theorem mem_of_getLast : ∀ {l : List Char} {c : Char}, l.getLast? = some c → c ∈ l := by
  intro l
  induction l with
  | nil => intro c h; simp at h
  | cons a t ih =>
    intro c h
    cases t with
    | nil => simp [List.getLast?] at h; simp [h]
    | cons b u =>
      rw [List.getLast?_cons_cons] at h
      exact List.mem_cons_of_mem a (ih h)

theorem hexLower_facts : ∀ c ∈ hexLowerChars,
    isWs c = false ∧ pyLowerChar c = c ∧ c ≠ '@' ∧ pyUpperChar c ∈ hexUpChars := by
  decide

theorem hexUp_facts : ∀ c ∈ hexUpChars, isWs c = false ∧ c ≠ '@' := by
  decide

/-- On a (stripped, lowered) plain 6-hex-digit color, `_ass_color` takes the
`len(color) == 6 and all(...)` branch and encodes the digits. -/
theorem ass_color_of_hex6 {x fb : List Char}
    (h6 : (pyLower (pyStrip x)).length = 6)
    (hall : ∀ ch ∈ pyLower (pyStrip x), ch ∈ hexLowerChars) :
    ass_color x fb = assOfHex (pyLower (pyStrip x)) := by
  have hxne : x ≠ [] := by
    intro h
    rw [h] at h6
    simp [pyStrip, pyLower] at h6
  have hnamed : namedColor (pyLower (pyStrip x)) = none := by
    unfold namedColor
    split_ifs with h1 h2 h3 h4 h5 hx6
    · exact absurd (hall 'w' (h1 ▸ by simp)) (by decide)
    · exact absurd (hall 'k' (h2 ▸ by simp)) (by decide)
    · exact absurd (hall 'r' (h3 ▸ by simp)) (by decide)
    · exact absurd (hall 'g' (h4 ▸ by simp)) (by decide)
    · exact absurd (hall 'l' (h5 ▸ by simp)) (by decide)
    · exact absurd (hall 'y' (hx6 ▸ by simp)) (by decide)
    · rfl
  unfold ass_color
  rw [if_neg hxne]
  simp only [hnamed]
  rw [if_neg (by
    rintro ⟨-, h7⟩
    rw [h6] at h7
    exact absurd h7 (by norm_num))]
  rw [if_pos ⟨h6, hall⟩]

/-- Shape of the `_ass_color` output on a valid 6-hex-digit input:
`"&H00"` followed by six uppercase hexadecimal digits. -/
theorem assOfHex_shape {hex : List Char} (h6 : hex.length = 6)
    (hall : ∀ c ∈ hex, c ∈ hexLowerChars) :
    ∃ m : List Char, assOfHex hex = ['&', 'H', '0', '0'] ++ m ∧
      m.length = 6 ∧ ∀ c ∈ m, c ∈ hexUpChars := by
  refine ⟨((hex.drop 4).take 2).map pyUpperChar
    ++ (((hex.drop 2).take 2).map pyUpperChar ++ (hex.take 2).map pyUpperChar),
    ?_, ?_, ?_⟩
  · unfold assOfHex
    simp [List.append_assoc]
  · simp [List.length_take, List.length_drop, h6]
  · intro c hc
    simp only [List.mem_append, List.mem_map] at hc
    rcases hc with ⟨d, hd, rfl⟩ | ⟨d, hd, rfl⟩ | ⟨d, hd, rfl⟩
    · exact (hexLower_facts d (hall d
        ((List.drop_sublist _ _).mem ((List.take_sublist _ _).mem hd)))).2.2.2
    · exact (hexLower_facts d (hall d
        ((List.drop_sublist _ _).mem ((List.take_sublist _ _).mem hd)))).2.2.2
    · exact (hexLower_facts d (hall d ((List.take_sublist _ _).mem hd))).2.2.2

end FFS

namespace FFS

/-- Feeding a native `&H00`-prefixed encoding back through
`_ass_color_with_alpha` falls through every recognizer and returns the
fallback. -/
theorem resolve_native_is_fallback (floatOf : List Char → Option ℚ)
    {m fb : List Char} (hm6 : m.length = 6)
    (hmall : ∀ c ∈ m, c ∈ hexUpChars) :
    ass_color_with_alpha floatOf (['&', 'H', '0', '0'] ++ m) fb = fb := by
  have hmne : m ≠ [] := by
    intro h
    rw [h] at hm6
    simp at hm6
  have hstrip : pyStrip (['&', 'H', '0', '0'] ++ m) = ['&', 'H', '0', '0'] ++ m := by
    refine pyStrip_eq_self ?_ ?_
    · intro c hc
      simp at hc
      rw [← hc]
      decide
    · intro c hc
      rw [getLast?_append_right hmne] at hc
      exact (hexUp_facts c (hmall c (mem_of_getLast hc))).1
  have hat : '@' ∉ ['&', 'H', '0', '0'] ++ m := by
    intro h
    rcases List.mem_append.1 h with h | h
    · simp at h
    · exact absurd rfl (hexUp_facts '@' (hmall _ h)).2
  have hsplit : split_color_alpha floatOf (['&', 'H', '0', '0'] ++ m) =
      (['&', 'H', '0', '0'] ++ m, none) := by
    unfold split_color_alpha
    rw [if_neg (by simp)]
    simp only [hstrip]
    rw [if_neg hat]
  unfold ass_color_with_alpha
  rw [hsplit]
  dsimp only
  -- now the plain `ass_color` on the native string
  unfold ass_color
  rw [if_neg (by simp)]
  simp only [hstrip]
  have hlen : (pyLower (['&', 'H', '0', '0'] ++ m)).length = 10 := by
    simp [pyLower, hm6]
  have hnamed : namedColor (pyLower (['&', 'H', '0', '0'] ++ m)) = none := by
    unfold namedColor
    split_ifs with h1 h2 h3 h4 h5 h6 <;>
      first
        | rfl
        | (exfalso
           first
             | (rw [h1] at hlen; simp at hlen)
             | (rw [h2] at hlen; simp at hlen)
             | (rw [h3] at hlen; simp at hlen)
             | (rw [h4] at hlen; simp at hlen)
             | (rw [h5] at hlen; simp at hlen)
             | (rw [h6] at hlen; simp at hlen))
  simp only [hnamed]
  rw [if_neg (by
    rintro ⟨-, h7⟩
    rw [hlen] at h7
    exact absurd h7 (by norm_num))]
  rw [if_neg (by
    rintro ⟨h6', -⟩
    rw [hlen] at h6'
    exact absurd h6' (by norm_num))]

end FFS

namespace FFS

/-- On a plain valid 6-hex-digit spec (no `@` suffix), the resolver encodes
the digits: there is no alpha part and `_ass_color` takes the hex branch. -/
theorem resolve_hex6_first (floatOf : List Char → Option ℚ) {x fb : List Char}
    (h6 : (pyLower (pyStrip x)).length = 6)
    (hall : ∀ ch ∈ pyLower (pyStrip x), ch ∈ hexLowerChars) :
    ass_color_with_alpha floatOf x fb = assOfHex (pyLower (pyStrip x)) := by
  have hxne : x ≠ [] := by
    intro h
    rw [h] at h6
    simp [pyStrip, pyLower] at h6
  have hat : '@' ∉ pyStrip x := by
    intro h
    have hm : pyLowerChar '@' ∈ pyLower (pyStrip x) := List.mem_map_of_mem _ h
    rw [show pyLowerChar '@' = '@' from by decide] at hm
    exact absurd (hall _ hm) (by decide)
  have hsplit : split_color_alpha floatOf x = (pyStrip x, none) := by
    unfold split_color_alpha
    rw [if_neg hxne]
    dsimp only
    rw [if_neg hat]
  unfold ass_color_with_alpha
  rw [hsplit]
  dsimp only
  have := @ass_color_of_hex6 (pyStrip x) fb
  rw [pyStrip_idem] at this
  exact this h6 hall

end FFS

namespace FFS

/-- Claim C2 is false as stated: re-encoding the native output of the color
resolver silently replaces the defined color bytes with the fallback's.  At
the valid hex spec `"ff0000"` with fallback `"&H00FFFFFF"`, the first
resolution gives `"&H000000FF"`, but resolving that output again gives
`"&H00FFFFFF"`: the defined bytes `0000FF` are changed. -/
theorem resolve_color_not_stable :
    ass_color_with_alpha (fun _ => none)
        (ass_color_with_alpha (fun _ => none) ['f', 'f', '0', '0', '0', '0']
          ['&', 'H', '0', '0', 'F', 'F', 'F', 'F', 'F', 'F'])
        ['&', 'H', '0', '0', 'F', 'F', 'F', 'F', 'F', 'F'] ≠
      ass_color_with_alpha (fun _ => none) ['f', 'f', '0', '0', '0', '0']
        ['&', 'H', '0', '0', 'F', 'F', 'F', 'F', 'F', 'F'] := by
  decide

/-- Claim C2 (amended): re-applying the color resolver to its own
native-encoded output never crashes, but it does not preserve the encoded
bytes: the native `&H00BBGGRR` string is not a recognized color spec, so the
second application always returns the fallback (the bytes are preserved only
when the fallback happens to equal the first result). -/
theorem resolve_color_reapply (floatOf : List Char → Option ℚ) (x fb : List Char)
    (h6 : (pyLower (pyStrip x)).length = 6)
    (hall : ∀ ch ∈ pyLower (pyStrip x), ch ∈ hexLowerChars) :
    ass_color_with_alpha floatOf (ass_color_with_alpha floatOf x fb) fb = fb := by
  rw [resolve_hex6_first floatOf h6 hall]
  obtain ⟨m, hm, hm6, hmall⟩ := assOfHex_shape h6 hall
  rw [hm]
  exact resolve_native_is_fallback floatOf hm6 hmall

/-- Witness for `resolve_color_reapply` at the spec `"ff0000"`. -/
theorem resolve_color_reapply_witness :
    (pyLower (pyStrip ['f', 'f', '0', '0', '0', '0'])).length = 6 ∧
    (∀ ch ∈ pyLower (pyStrip ['f', 'f', '0', '0', '0', '0']), ch ∈ hexLowerChars) ∧
    ass_color_with_alpha (fun _ => none)
        (ass_color_with_alpha (fun _ => none) ['f', 'f', '0', '0', '0', '0']
          ['&', 'H', '0', '0', 'A', 'B', 'C', 'D', 'E', 'F'])
        ['&', 'H', '0', '0', 'A', 'B', 'C', 'D', 'E', 'F'] =
      ['&', 'H', '0', '0', 'A', 'B', 'C', 'D', 'E', 'F'] :=
  ⟨by decide, by decide,
    resolve_color_reapply (fun _ => none) ['f', 'f', '0', '0', '0', '0']
      ['&', 'H', '0', '0', 'A', 'B', 'C', 'D', 'E', 'F'] (by decide) (by decide)⟩

end FFS

namespace FFS

theorem mem_of_head? {l : List Char} {c : Char} (h : l.head? = some c) : c ∈ l := by
  cases l with
  | nil => simp at h
  | cons a t =>
    simp at h
    simp [h]

theorem map_eq_self {f : Char → Char} :
    ∀ {l : List Char}, (∀ c ∈ l, f c = c) → l.map f = l := by
  intro l
  induction l with
  | nil => intro _; rfl
  | cons a t ih =>
    intro h
    simp only [List.map_cons]
    rw [h a (by simp), ih (fun c hc => h c (by simp [hc]))]

/-- The `_parse_alpha` numeric core: a bare value in `(1, 100]` is read as a
percentage. -/
theorem parse_alpha_num_pct {a : ℚ} (h1 : 1 < a) (h2 : a ≤ 100) :
    parse_alpha_num a = some (a / 100) := by
  unfold parse_alpha_num
  dsimp only
  split_ifs with hc1 hc2
  · rfl
  · exfalso
    refine hc2 ⟨by positivity, ?_⟩
    rw [div_le_one (by norm_num)]
    exact h2
  · exact absurd ⟨h1, h2⟩ hc1
  · exact absurd ⟨h1, h2⟩ hc1

/-- The `_parse_alpha` numeric core: a bare value above 100 or below 0 yields no
alpha. -/
theorem parse_alpha_num_out {a : ℚ} (h : 100 < a ∨ a < 0) :
    parse_alpha_num a = none := by
  unfold parse_alpha_num
  dsimp only
  split_ifs with hc1 hc2 hc3
  · exfalso
    rcases h with h | h <;> rcases hc1 with ⟨h1a, h1b⟩ <;> linarith
  · rfl
  · exfalso
    rcases h with h | h <;> rcases hc3 with ⟨h3a, h3b⟩ <;> linarith
  · rfl

end FFS

namespace FFS

/-- Claim C9: alpha-suffix parsing is lenient beyond the documented
`[0,1]`-or-percentage forms.  For a spec `base@alpha` with a valid
6-hex-digit base and a bare numeric alpha: (i) a value strictly greater
than 1 and at most 100 is divided by 100 (read as a percentage); (ii) a
value above 100 or below 0 yields no alpha at all, and the base color is
still encoded as `assOfHex base` — the `&H00BBGGRR` form whose leading
alpha byte is the fully-opaque `00` and which does not involve the
fallback — rather than the whole spec being rejected to the fallback. -/
theorem alpha_leniency :
    (∀ a : ℚ, 1 < a → a ≤ 100 → parse_alpha_num a = some (a / 100)) ∧
    (∀ a : ℚ, 100 < a ∨ a < 0 → parse_alpha_num a = none) ∧
    (∀ (floatOf : List Char → Option ℚ) (base av fb : List Char) (a : ℚ),
      base.length = 6 → (∀ ch ∈ base, ch ∈ hexLowerChars) →
      '@' ∉ av → (∀ c ∈ av, isWs c = false) →
      av.getLast? ≠ some '%' →
      floatOf av = some a → (100 < a ∨ a < 0) →
      ass_color_with_alpha floatOf (base ++ '@' :: av) fb = assOfHex base) := by
  refine ⟨fun a h1 h2 => parse_alpha_num_pct h1 h2,
    fun a h => parse_alpha_num_out h, ?_⟩
  intro floatOf base av fb a hb6 hball hav havws hpct hfloat hrange
  have hbne : base ≠ [] := by
    intro h
    rw [h] at hb6
    simp at hb6
  have hstrip : pyStrip (base ++ '@' :: av) = base ++ '@' :: av := by
    refine pyStrip_eq_self ?_ ?_
    · intro c hc
      cases base with
      | nil => exact absurd rfl hbne
      | cons b t =>
        rw [List.cons_append] at hc
        simp at hc
        exact hc ▸ (hexLower_facts b (hball b (by simp))).1
    · intro c hc
      cases av with
      | nil =>
        rw [getLast?_append_right (by simp)] at hc
        simp at hc
        rw [← hc]
        decide
      | cons a0 t0 =>
        rw [getLast?_append_right (by simp), List.getLast?_cons_cons] at hc
        exact havws c (mem_of_getLast hc)
  have hpav : ∀ c ∈ av.reverse, (c != '@') = true := by
    intro c hc
    rw [List.mem_reverse] at hc
    simp only [bne_iff_ne, ne_eq]
    intro h
    exact hav (h ▸ hc)
  have hrev : (base ++ '@' :: av).reverse = av.reverse ++ '@' :: base.reverse := by
    simp
  have hdrop : (base ++ '@' :: av).reverse.dropWhile (· != '@') = '@' :: base.reverse := by
    rw [hrev, dropWhile_append_all hpav, List.dropWhile_cons_of_neg (by simp)]
  have htake : (base ++ '@' :: av).reverse.takeWhile (· != '@') = av.reverse := by
    rw [hrev, takeWhile_append_all hpav, List.takeWhile_cons_of_neg (by simp),
      List.append_nil]
  have hstripbase : pyStrip base = base :=
    pyStrip_eq_self
      (fun c hc => (hexLower_facts c (hball c (mem_of_head? hc))).1)
      (fun c hc => (hexLower_facts c (hball c (mem_of_getLast hc))).1)
  have hparse : parse_alpha floatOf av = none := by
    cases av with
    | nil => rfl
    | cons a0 t0 =>
      unfold parse_alpha
      rw [if_neg (by simp)]
      dsimp only
      rw [pyStrip_eq_self
        (fun c hc => by
          simp at hc
          exact hc ▸ havws a0 (by simp))
        (fun c hc => havws c (mem_of_getLast hc))]
      rw [if_neg hpct, hfloat]
      exact parse_alpha_num_out hrange
  have hsplit : split_color_alpha floatOf (base ++ '@' :: av) = (base, none) := by
    unfold split_color_alpha
    rw [if_neg (by simp)]
    dsimp only
    rw [hstrip]
    rw [if_pos (by simp : '@' ∈ base ++ '@' :: av)]
    rw [hdrop, htake]
    simp only [List.drop_succ_cons, List.drop_zero, List.reverse_reverse]
    rw [hstripbase, hparse]
  have hpl : pyLower (pyStrip base) = base := by
    rw [hstripbase]
    exact map_eq_self (fun c hc => (hexLower_facts c (hball c hc)).2.1)
  unfold ass_color_with_alpha
  rw [hsplit]
  dsimp only
  have hfinal := @ass_color_of_hex6 base fb
    (by rw [hpl]; exact hb6) (by rw [hpl]; exact hball)
  rw [hpl] at hfinal
  exact hfinal

/-- Witness for `alpha_leniency`: alpha `"50"` is read as 50 percent, alpha
`200` is out of range, and the spec `"ff0000@200"` still encodes red with
the fully-opaque `00` alpha byte. -/
theorem alpha_leniency_witness :
    parse_alpha_num 50 = some (50 / 100) ∧
    parse_alpha_num 200 = none ∧
    ass_color_with_alpha
        (fun s => if s = ['2', '0', '0'] then some 200 else none)
        (['f', 'f', '0', '0', '0', '0'] ++ '@' :: ['2', '0', '0'])
        ['&', 'H', '0', '0', 'F', 'F', 'F', 'F', 'F', 'F'] =
      assOfHex ['f', 'f', '0', '0', '0', '0'] :=
  ⟨alpha_leniency.1 50 (by norm_num) (by norm_num),
    alpha_leniency.2.1 200 (Or.inl (by norm_num)),
    alpha_leniency.2.2 (fun s => if s = ['2', '0', '0'] then some 200 else none)
      ['f', 'f', '0', '0', '0', '0'] ['2', '0', '0']
      ['&', 'H', '0', '0', 'F', 'F', 'F', 'F', 'F', 'F'] 200
      (by decide) (by decide) (by decide) (by decide) (by decide)
      (by decide) (Or.inl (by norm_num))⟩

end FFS

namespace FFS

/-! ## Aspect-ratio conversion (`FFMPEGService._parse_aspect_ratio`,
`_even`, `convert_aspect_ratio`) -/

/-- Embeds `FFMPEGService._parse_aspect_ratio`: the fixed three-entry table
`{"9:16": 9/16, "1:1": 1.0, "16:9": 16/9}`; any other string raises
HTTP 400, modeled as `none`. -/
def parseAspectValue (s : String) : Option ℚ :=
  if s = "9:16" then some (9/16)
  else if s = "1:1" then some 1
  else if s = "16:9" then some (16/9)
  else none

/-- Embeds `FFMPEGService._even` (source name `_even`): `value = max(2, value)`,
then subtract 1 if odd. -/
def evenDim (value : ℤ) : ℤ :=
  if (max 2 value) % 2 = 0 then max 2 value else max 2 value - 1

/-- Target-dimension computation of `FFMPEGService.convert_aspect_ratio`:
for `ratio >= 1` keep the source width and set
`target_height = int(round(width / ratio))`; otherwise keep the source
height; both targets are then forced even by `_even`. -/
def aspect_target_dims (width height : ℕ) (target : String) : Option (ℤ × ℤ) :=
  (parseAspectValue target).map fun r =>
    if 1 ≤ r then
      (evenDim width, evenDim (pyRound ((width : ℚ) / r)))
    else
      (evenDim (pyRound ((height : ℚ) * r)), evenDim height)

/-- The `-vf` filter built by `convert_aspect_ratio`: scale (decreasing,
aspect preserved) then pad to the target with the requested background
color. -/
def aspect_vf (tw th : ℤ) (background_color : String) : String :=
  "scale=" ++ toString tw ++ ":" ++ toString th ++
    ":force_original_aspect_ratio=decrease,pad=" ++ toString tw ++ ":" ++
    toString th ++ ":(ow-iw)/2:(oh-ih)/2:color=" ++ background_color

/-- Claim C1 is false as stated: converting a 1920x1080 source to ratio
`"1:1"` targets 1920x1920, not 1080x1080.  `_parse_aspect_ratio("1:1")`
returns 1.0, so the `ratio >= 1` branch keeps the source width 1920 and sets
the height to `round(1920 / 1.0) = 1920`. -/
theorem aspect_dims_1920_eval :
    aspect_target_dims 1920 1080 "1:1" = some (1920, 1920) := by
  unfold aspect_target_dims parseAspectValue
  rw [if_neg (by decide), if_pos rfl]
  simp only [Option.map_some']
  rw [if_pos (by norm_num)]
  have h : ((1920 : ℕ) : ℚ) / 1 = (((1920 : ℕ) : ℤ) : ℚ) := by norm_num
  rw [h, pyRound_intCast]
  norm_num [evenDim]

theorem aspect_1_1_not_1080 :
    aspect_target_dims 1920 1080 "1:1" = some (1920, 1920) ∧
    aspect_target_dims 1920 1080 "1:1" ≠ some (1080, 1080) := by
  refine ⟨aspect_dims_1920_eval, ?_⟩
  rw [aspect_dims_1920_eval]
  decide

/-- Claim C1 (amended): converting the aspect ratio of a 1920x1080 source to
target `"1:1"` produces a scale/pad command whose target dimensions are the
even values 1920x1920, padded with the requested background color. -/
theorem aspect_1_1_target (background_color : String) :
    aspect_target_dims 1920 1080 "1:1" = some (1920, 1920) ∧
    (1920 : ℤ) % 2 = 0 ∧
    aspect_vf 1920 1920 background_color =
      "scale=1920:1920:force_original_aspect_ratio=decrease,pad=1920:1920:(ow-iw)/2:(oh-ih)/2:color="
        ++ background_color := by
  refine ⟨aspect_dims_1920_eval, by decide, rfl⟩

end FFS

namespace FFS

/-! ## Process execution (`FFMPEGService.run_command`) -/

/-- Outcome of one `asyncio.create_subprocess_exec` invocation as observed
by `run_command`: the process completed with an exit code and captured
streams, `asyncio.wait_for` raised `TimeoutError`, or some other exception
was raised. -/
inductive ProcOutcome where
  | completed (returncode : ℤ) (stdout stderr : String)
  | timedOut
  | raised (msg : String)

/-- Embeds `FFMPEGService.run_command` as a function of the effective timeout and
the process outcome: returns the `(success, stdout, stderr)` triple together
with whether `process.kill()` was invoked.  On completion success is
`returncode == 0`; on timeout the process is killed and the error string is
`f"Operation timed out after {timeout} seconds"`; on any other exception the
error string is `str(e)`. -/
def run_command (timeout : ℕ) (outcome : ProcOutcome) :
    (Bool × String × String) × Bool :=
  match outcome with
  | .completed rc out err => ((rc == 0, out, err), false)
  | .timedOut =>
    ((false, "", "Operation timed out after " ++ toString timeout ++ " seconds"),
      true)
  | .raised msg => ((false, "", msg), false)

/-- Claim C7: when the external process exceeds the configured timeout,
`run_command` returns `success = false` with the timeout-specific error
string naming the timeout duration, and the process is forcibly killed;
a tool-reported failure instead carries the tool's own stderr (with no
kill), so the two are distinguishable. -/
theorem run_command_timeout (timeout : ℕ) :
    run_command timeout .timedOut =
      ((false, "",
        "Operation timed out after " ++ toString timeout ++ " seconds"), true) ∧
    (∀ (rc : ℤ) (out err : String), rc ≠ 0 →
      run_command timeout (.completed rc out err) = ((false, out, err), false)) := by
  refine ⟨rfl, fun rc out err h => ?_⟩
  unfold run_command
  simp [h]

/-! ## Concatenation (`FFMPEGService.concat_segments`) -/

/-- Environment for one `concat_segments` call: the subprocess oracle
(`run_command`'s `(success, stdout, stderr)` for a given argument list) and
whether the output file exists afterwards (`os.path.exists(output_path)`). -/
structure ExecEnv where
  run : List String → Bool × String × String
  output_exists : Bool

/-- The x264/aac encode policy flags shared by `trim_video_segment`,
`_normalize_video_clip` and the concat re-encode fallback. -/
def encodePolicyArgs : List String :=
  ["-c:v", "libx264", "-preset", "veryfast", "-crf", "23",
   "-c:a", "aac", "-ac", "2", "-ar", "44100", "-movflags", "+faststart"]

/-- Emits `["-threads", str(settings.FFMPEG_THREADS)]` when the setting is
positive. -/
def threadArgs (threads : ℕ) : List String :=
  if 0 < threads then ["-threads", toString threads] else []

/-- The stream-copy concat command of `concat_segments`. -/
def concatCopyCmd (threads : ℕ) (list_path output_path : String) : List String :=
  ["ffmpeg", "-y", "-f", "concat", "-safe", "0", "-i", list_path,
    "-c", "copy", "-movflags", "+faststart"] ++ threadArgs threads ++ [output_path]

/-- The re-encode fallback concat command of `concat_segments`. -/
def concatEncodeCmd (threads : ℕ) (list_path output_path : String) : List String :=
  ["ffmpeg", "-y", "-f", "concat", "-safe", "0", "-i", list_path]
    ++ encodePolicyArgs ++ threadArgs threads ++ [output_path]

/-- The fields of the `FFMPEGResult` dataclass exercised by
`concat_segments` (`output_paths` and `duration` stay `None` there). -/
structure FFMPEGResult where
  success : Bool
  output_path : Option String := none
  error : Option String := none
deriving DecidableEq

/-- Embeds `FFMPEGService.concat_segments` once the list file is written: run the
stream-copy command; if it fails, remove the partial output and re-run with
the full re-encode policy; finally report success only if the last
invocation succeeded and the output file exists, else report that
invocation's stderr.  The trace of invoked commands is returned alongside. -/
def concat_segments (env : ExecEnv) (threads : ℕ)
    (list_path output_path : String) : FFMPEGResult × List (List String) :=
  let c1 := concatCopyCmd threads list_path output_path
  match env.run c1 with
  | (true, _, err1) =>
    (if env.output_exists then
      { success := true, output_path := some output_path }
    else { success := false, error := some err1 }, [c1])
  | (false, _, _) =>
    let c2 := concatEncodeCmd threads list_path output_path
    match env.run c2 with
    | (ok2, _, err2) =>
      (if ok2 && env.output_exists then
        { success := true, output_path := some output_path }
      else { success := false, error := some err2 }, [c1, c2])

/-- Claim C6: if the initial stream-copy invocation fails, `concat_segments`
retries with the full re-encode command (which carries the same encode
policy constants), and the returned result — success flag and error
detail — is determined by the fallback invocation, not by the initial
stream-copy failure. -/
theorem concat_fallback (env : ExecEnv) (threads : ℕ) (lp op : String)
    (hfail : (env.run (concatCopyCmd threads lp op)).1 = false) :
    (concat_segments env threads lp op).2 =
      [concatCopyCmd threads lp op, concatEncodeCmd threads lp op] ∧
    (∃ pre suf, concatEncodeCmd threads lp op = pre ++ encodePolicyArgs ++ suf) ∧
    (concat_segments env threads lp op).1 =
      (if (env.run (concatEncodeCmd threads lp op)).1 && env.output_exists then
        { success := true, output_path := some op }
      else
        { success := false,
          error := some (env.run (concatEncodeCmd threads lp op)).2.2 }) := by
  refine ⟨?_, ⟨["ffmpeg", "-y", "-f", "concat", "-safe", "0", "-i", lp],
    threadArgs threads ++ [op], rfl⟩, ?_⟩ <;>
  · unfold concat_segments
    rcases h1 : env.run (concatCopyCmd threads lp op) with ⟨ok1, o1, e1⟩
    rw [h1] at hfail
    simp only at hfail
    subst hfail
    rcases h2 : env.run (concatEncodeCmd threads lp op) with ⟨ok2, o2, e2⟩
    simp [h1, h2]

/-- Witness for `concat_fallback`: an environment whose every invocation
fails. -/
theorem concat_fallback_witness :
    (concat_segments ⟨fun _ => (false, "", "boom"), true⟩ 0 "list.txt" "out.mp4").2 =
      [concatCopyCmd 0 "list.txt" "out.mp4", concatEncodeCmd 0 "list.txt" "out.mp4"] ∧
    (concat_segments ⟨fun _ => (false, "", "boom"), true⟩ 0 "list.txt" "out.mp4").1 =
      { success := false, error := some "boom" } := by
  have h := concat_fallback ⟨fun _ => (false, "", "boom"), true⟩ 0 "list.txt" "out.mp4" rfl
  exact ⟨h.1, h.2.2⟩

end FFS

namespace FFS

/-! ## Route-level upload handling (`app/routers/captions.py`
`add_video_captions`, `app/routers/videos.py` `concat_videos`,
`app/services/r2_service.py` `R2Service.upload_file_path`) -/

/-- Response model of the caption / concat routes: `success` plus the
`r2_key` / `r2_url` upload fields (`None` when absent). -/
structure RouteResponse where
  success : Bool
  r2_key : Option String := none
  r2_url : Option String := none
deriving DecidableEq

/-- The post-transform tail shared by `concat_videos` (videos.py 136-161)
and `add_video_captions` (captions.py 193-222): a failed transform raises
HTTP 500 with the route-specific detail; otherwise, when upload was
requested, `r2_service.upload_file_path` is awaited — it raises
`HTTPException(502, ...)` on `BotoCoreError`/`ClientError`, and that
exception propagates out of the handler — and only on upload success is a
success response with the key/url pair returned.  When upload was not
requested the success response carries empty upload fields. -/
def route_after_transform (transform_success : Bool) (fail_detail : String)
    (upload : Bool) (upload_outcome : Except (ℕ × String) (String × String)) :
    Except (ℕ × String) RouteResponse :=
  if transform_success = false then
    .error (500, fail_detail)
  else if upload then
    match upload_outcome with
    | .error e => .error e
    | .ok (k, u) => .ok { success := true, r2_key := some k, r2_url := some u }
  else .ok { success := true }

/-- Claim C8 is false as stated: with a successful transform and a failing
requested upload, the route does not report success with empty upload
fields — the upload `HTTPException` propagates and the request fails with
the storage error (HTTP 502). -/
theorem upload_failure_not_best_effort :
    route_after_transform true "detail" true
        (.error (502, "Failed to upload to R2: boom")) =
      .error (502, "Failed to upload to R2: boom") ∧
    route_after_transform true "detail" true
        (.error (502, "Failed to upload to R2: boom")) ≠
      .ok { success := true, r2_key := none, r2_url := none } := by
  exact ⟨rfl, fun h => Except.noConfusion h⟩

/-- Claim C8 (amended): when the transform succeeds but the requested upload
fails, the upload exception propagates and the operation fails with the
storage error; a success response with empty upload fields is returned only
when upload was not requested. -/
theorem upload_failure_propagates (fail_detail : String) (e : ℕ × String)
    (outcome : Except (ℕ × String) (String × String))
    (h : outcome = .error e) :
    route_after_transform true fail_detail true outcome = .error e ∧
    route_after_transform true fail_detail false outcome =
      .ok { success := true, r2_key := none, r2_url := none } := by
  subst h
  exact ⟨rfl, rfl⟩

/-- Witness for `upload_failure_propagates` at a concrete 502 upload
error. -/
theorem upload_failure_propagates_witness :
    route_after_transform true "Failed to add captions: x" true
        (.error (502, "Failed to upload to R2: boom")) =
      .error (502, "Failed to upload to R2: boom") ∧
    route_after_transform true "Failed to add captions: x" false
        (.error (502, "Failed to upload to R2: boom")) =
      .ok { success := true, r2_key := none, r2_url := none } :=
  upload_failure_propagates "Failed to add captions: x"
    (502, "Failed to upload to R2: boom")
    (.error (502, "Failed to upload to R2: boom")) rfl

end FFS

namespace FFS

/-! ## Subtitle cue time formatting (`FFMPEGService._format_ass_time`) -/

/-- Computes `total_cs = int(round(max(0.0, seconds) * 100))`; non-negative, so the
`Int.toNat` is faithful. -/
def totalCs (seconds : ℚ) : ℕ := (pyRound (max 0 seconds * 100)).toNat

/-- The fixed-width two-digit field `f"{n:02d}"` for `n < 100`. -/
def digits2 (n : ℕ) : List Char := [Nat.digitChar (n / 10), Nat.digitChar (n % 10)]

/-- Embeds `FFMPEGService._format_ass_time(seconds)`:
`f"{hours}:{mins:02d}:{secs:02d}.{cs:02d}"` — the hours field is rendered
with no zero padding (variable width). -/
def format_ass_time (seconds : ℚ) : List Char :=
  Nat.toDigits 10 (totalCs seconds / 360000)
    ++ ':' :: digits2 (totalCs seconds / 6000 % 60)
    ++ ':' :: digits2 (totalCs seconds / 100 % 60)
    ++ '.' :: digits2 (totalCs seconds % 100)

/-- Lexicographic `<=` on strings (Python's `str` comparison, by code
point). -/
def charListLE (xs ys : List Char) : Bool :=
  match xs, ys with
  | [], _ => true
  | _, [] => false
  | x :: xt, y :: yt =>
    if x < y then true
    else if x = y then charListLE xt yt
    else false

theorem digitChar_lt : ∀ b < 10, ∀ a < b, Nat.digitChar a < Nat.digitChar b := by
  decide

theorem toDigits_lt_ten : ∀ n < 10, Nat.toDigits 10 n = [Nat.digitChar n] := by
  decide

theorem charListLE_cons_lt {a b : Char} (h : a < b) (l1 l2 : List Char) :
    charListLE (a :: l1) (b :: l2) = true := by
  simp [charListLE, h]

theorem charListLE_cons_eq {a : Char} {l1 l2 : List Char}
    (h : charListLE l1 l2 = true) :
    charListLE (a :: l1) (a :: l2) = true := by
  unfold charListLE
  split_ifs with h1 h2 <;> first | rfl | exact h | exact absurd rfl h2

/-- One decimal-digit position of a fixed-width comparison: compare the
digits, falling through to the tails when equal. -/
theorem charListLE_digit_step {a b : ℕ} {l1 l2 : List Char} (hb : b < 10)
    (hab : a ≤ b) (heq : a = b → charListLE l1 l2 = true) :
    charListLE (Nat.digitChar a :: l1) (Nat.digitChar b :: l2) = true := by
  rcases Nat.lt_or_ge a b with h | h
  · exact charListLE_cons_lt (digitChar_lt b hb a h) l1 l2
  · have hab' : a = b := le_antisymm hab h
    subst hab'
    exact charListLE_cons_eq (heq rfl)

/-- Monotonicity of the rendered `H:MM:SS.CC` string in the total
centisecond count, provided the larger time stays below 10 hours (so that
the unpadded hours field is a single digit on both sides). -/
theorem fmt_fields_le {x y : ℕ} (hxy : x ≤ y) (hy : y / 360000 < 10) :
    charListLE
      (Nat.toDigits 10 (x / 360000) ++ ':' :: digits2 (x / 6000 % 60)
        ++ ':' :: digits2 (x / 100 % 60) ++ '.' :: digits2 (x % 100))
      (Nat.toDigits 10 (y / 360000) ++ ':' :: digits2 (y / 6000 % 60)
        ++ ':' :: digits2 (y / 100 % 60) ++ '.' :: digits2 (y % 100)) = true := by
  have hx : x / 360000 < 10 :=
    lt_of_le_of_lt (Nat.div_le_div_right hxy) hy
  rw [toDigits_lt_ten _ hx, toDigits_lt_ten _ hy]
  simp only [digits2, List.cons_append, List.nil_append, List.singleton_append]
  refine charListLE_digit_step hy (Nat.div_le_div_right hxy) (fun hh => ?_)
  refine charListLE_cons_eq ?_
  refine charListLE_digit_step (by omega) (by omega) (fun hm10 => ?_)
  refine charListLE_digit_step (by omega) (by omega) (fun hm1 => ?_)
  refine charListLE_cons_eq ?_
  refine charListLE_digit_step (by omega) (by omega) (fun hs10 => ?_)
  refine charListLE_digit_step (by omega) (by omega) (fun hs1 => ?_)
  refine charListLE_cons_eq ?_
  refine charListLE_digit_step (by omega) (by omega) (fun hc10 => ?_)
  refine charListLE_digit_step (by omega) (by omega) (fun hc1 => ?_)
  rfl

end FFS

namespace FFS

theorem totalCs_eval {q : ℚ} {n : ℕ} (h : max 0 q * 100 = (n : ℚ)) :
    totalCs q = n := by
  unfold totalCs
  rw [h, pyRound_natCast]
  simp

/-- Claim C4 is false as stated: the hours field of `_format_ass_time` has
no zero padding, so the formatter is not lexicographically monotonic once
ten hours are reached.  At `a = 7200` (2 h) and `b = 36000` (10 h) the
strings are `"2:00:00.00"` and `"10:00:00.00"`, and the second compares
strictly below the first (`'1' < '2'`). -/
theorem format_ass_time_not_mono :
    (7200 : ℚ) < 36000 ∧
    charListLE (format_ass_time 7200) (format_ass_time 36000) = false := by
  have h1 : totalCs 7200 = 720000 := totalCs_eval (by norm_num)
  have h2 : totalCs 36000 = 3600000 := totalCs_eval (by norm_num)
  refine ⟨by norm_num, ?_⟩
  unfold format_ass_time
  rw [h1, h2]
  decide

/-- Claim C4 (amended): the cue-time formatter is lexicographically
monotonic on the sub-ten-hours range — for `a < b` with `b` rendering below
10 hours, `format_ass_time a <= format_ass_time b` in code-point
lexicographic order (minutes/seconds/centiseconds are fixed-width
zero-padded; the unpadded hours field is then a single digit on both
sides) — and negative inputs clamp to zero, so `format_ass_time a =
format_ass_time 0` for all `a < 0`.  Beyond ten hours the unpadded hours
field breaks monotonicity (see the counterexample). -/
theorem format_ass_time_mono :
    (∀ a b : ℚ, a < b → totalCs b / 360000 < 10 →
      charListLE (format_ass_time a) (format_ass_time b) = true) ∧
    (∀ a : ℚ, a < 0 → format_ass_time a = format_ass_time 0) := by
  constructor
  · intro a b hab hb
    have hcs : totalCs a ≤ totalCs b := by
      unfold totalCs
      have hmax : max 0 a * 100 ≤ max 0 b * 100 :=
        mul_le_mul_of_nonneg_right (max_le_max le_rfl hab.le) (by norm_num)
      exact Int.toNat_le_toNat (pyRound_mono hmax)
    exact fmt_fields_le hcs hb
  · intro a ha
    unfold format_ass_time totalCs
    rw [max_eq_left ha.le, max_eq_left le_rfl]

/-- Witness for `format_ass_time_mono` at `a = 1`, `b = 2` and `a = -3`. -/
theorem format_ass_time_mono_witness :
    charListLE (format_ass_time 1) (format_ass_time 2) = true ∧
    format_ass_time (-3) = format_ass_time 0 :=
  ⟨format_ass_time_mono.1 1 2 (by norm_num)
      (by rw [@totalCs_eval 2 200 (by norm_num)]; norm_num),
    format_ass_time_mono.2 (-3) (by norm_num)⟩

end FFS

namespace FFS

/-! ## Caption text wrapping (`FFMPEGService._wrap_caption_text`, built on
`textwrap.wrap` / `textwrap.shorten` with `break_long_words=True`,
`break_on_hyphens=False`, placeholder `"..."`).  `_munge_whitespace` is the
identity on the already-collapsed text these are applied to (no tabs
survive `str.split()`). -/

/-- Split into maximal runs of whitespace / non-whitespace characters: this
is `re.split(r'(\s+)', text)` with empty strings removed, i.e.
`TextWrapper._split` under `break_on_hyphens=False`
(`wordsep_simple_re`). -/
def splitRunsAux (cur : List Char) (curWs : Bool) : List Char → List (List Char)
  | [] => [cur.reverse]
  | c :: rest =>
    if isWs c = curWs then splitRunsAux (c :: cur) curWs rest
    else cur.reverse :: splitRunsAux [c] (isWs c) rest

/-- All maximal homogeneous runs of a string. -/
def splitRuns : List Char → List (List Char)
  | [] => []
  | c :: rest => splitRunsAux [c] (isWs c) rest

/-- Python `str.split()`: the non-whitespace runs. -/
def pyStrSplit (s : List Char) : List (List Char) :=
  (splitRuns s).filter (fun r => !r.all isWs)

/-- Python `" ".join(words)`. -/
def joinSpace : List (List Char) → List Char
  | [] => []
  | [w] => w
  | w :: ws => w ++ ' ' :: joinSpace ws

/-- Sum of the chunk lengths (`cur_len`). -/
def totalLen (cs : List (List Char)) : ℕ := (cs.map List.length).sum

/-- The greedy inner loop of `TextWrapper._wrap_chunks`: pop chunks onto the
current line while `cur_len + len(chunk) <= width`; stop at the first chunk
that does not fit. -/
def takeGreedy (width : ℕ) (curLen : ℕ) :
    List (List Char) → List (List Char) × List (List Char)
  | [] => ([], [])
  | c :: rest =>
    if curLen + c.length ≤ width then
      let tr := takeGreedy width (curLen + c.length) rest
      (c :: tr.1, tr.2)
    else ([], c :: rest)

/-- Embeds `TextWrapper._handle_long_word` under `break_long_words=True`, together
with its guard `chunks and len(chunks[-1]) > width`: split characters off
the head chunk onto the current line.  The split position is
`space_left = 1 if width < 1 else width - cur_len`, except that under
`break_on_hyphens=True` a chunk longer than `space_left` may instead break
just after its last suitable hyphen before `space_left`; `hyEnd` receives
the chunk and `space_left` and returns the break position (for
`break_on_hyphens=False` it is `fun _ sl => sl`; the textwrap hyphen rule
never returns more than `space_left`). -/
def handleLongH (hyEnd : List Char → ℕ → ℕ) (width curLen : ℕ) :
    List (List Char) → Option (List Char) × List (List Char)
  | [] => (none, [])
  | c :: rest =>
    if width < c.length then
      (some (c.take (hyEnd c (if width < 1 then 1 else width - curLen))),
        c.drop (hyEnd c (if width < 1 then 1 else width - curLen)) :: rest)
    else (none, c :: rest)

/-- Specializes `_handle_long_word` to `break_on_hyphens=False` (the `textwrap.wrap`
call site): the break position is exactly `space_left`. -/
def handleLong (width curLen : ℕ) :
    List (List Char) → Option (List Char) × List (List Char) :=
  handleLongH (fun _ sl => sl) width curLen

/-- The `drop_whitespace` trailing cleanup of `_wrap_chunks`: delete the
line's final chunk when it is all whitespace (a single deletion, not a
loop). -/
def dropTrailWs (cur : List (List Char)) : List (List Char) :=
  match cur.getLast? with
  | some last => if last.all isWs then cur.dropLast else cur
  | none => cur

/-- One iteration of the `while chunks` loop of `_wrap_chunks`
(`max_lines=None`): drop one leading whitespace chunk once a line has been
emitted, fill greedily, break a too-long head chunk, drop one trailing
whitespace chunk, and emit the line when nonempty. -/
def wrapStep (width : ℕ) (hasLines : Bool) (chunks : List (List Char)) :
    Option (List Char) × List (List Char) :=
  match chunks with
  | [] => (none, [])
  | c0 :: cs0 =>
    let chunks1 := if hasLines && c0.all isWs then cs0 else c0 :: cs0
    let tg := takeGreedy width 0 chunks1
    let hl := handleLong width (totalLen tg.1) tg.2
    let cur := dropTrailWs (tg.1 ++ hl.1.toList)
    (if cur = [] then none else some cur.flatten, hl.2)

/-- The fuel-indexed `while chunks` loop of `_wrap_chunks`.  Every Python
iteration removes at least one whole chunk or at least one character from
the chunk list (see `wrapStep_measure`), so a fuel of
`totalLen chunks + chunks.length + 1` always runs the loop to completion. -/
def wrapChunksAux (width : ℕ) : ℕ → Bool → List (List Char) → List (List Char)
  | 0, _, _ => []
  | _ + 1, _, [] => []
  | fuel + 1, hasLines, c0 :: cs0 =>
    match wrapStep width hasLines (c0 :: cs0) with
    | (some l, rest) => l :: wrapChunksAux width fuel true rest
    | (none, rest) => wrapChunksAux width fuel hasLines rest

/-- Embeds `textwrap.wrap(s, width, break_long_words=True, break_on_hyphens=False)`
for already-collapsed `s` (as produced by `" ".join(s.split())`). -/
def pyWrap (s : List Char) (width : ℕ) : List (List Char) :=
  wrapChunksAux width (totalLen (splitRuns s) + (splitRuns s).length + 1) false
    (splitRuns s)

/-- The truncation loop of `_wrap_chunks` under `max_lines=1`: drop chunks
from the end of the current line until a non-whitespace chunk fits together
with the placeholder `"..."`; with no preceding lines, an exhausted line
degenerates to the stripped placeholder alone.  The argument is the current
line in reverse. -/
def shortenTruncRev (width : ℕ) : List (List Char) → List Char
  | [] => ['.', '.', '.']
  | last :: revRest =>
    if last.all isWs = false ∧ totalLen (last :: revRest) + 3 ≤ width then
      (revRest.reverse ++ [last]).flatten ++ ['.', '.', '.']
    else shortenTruncRev width revRest

/-- Embeds `textwrap.shorten(text, width, placeholder="...")`: collapse whitespace
(`' '.join(text.strip().split())`), then fill with `max_lines=1` and the
**default** `break_on_hyphens=True`.  The hyphen-aware chunking
(`wordsep_re`) is abstracted as `split2` and the hyphen-aware long-word
break position as `hyEnd`; the properties the claims need — `split2` only
regroups the characters of its input, and `hyEnd ch sl ≤ sl` — hold for the
textwrap regex (on hyphen-free text `split2` coincides with `splitRuns`).
`Except.error` models the `ValueError`s (non-positive width / placeholder
too large for the width).  For the collapsed input the first chunk is never
whitespace, so the single `while chunks` iteration below is the entire
run: every branch of the `max_lines` logic ends in `break`, except the
all-fits branch after which only a trailing whitespace chunk could remain
(and it is dropped without emitting another line). -/
def pyShorten (split2 : List Char → List (List Char))
    (hyEnd : List Char → ℕ → ℕ) (text : List Char) (width : ℕ) :
    Except Unit (List Char) :=
  if width ≤ 0 then .error ()
  else if width < 3 then .error ()
  else
    match split2 (joinSpace (pyStrSplit text)) with
    | [] => .ok []
    | c0 :: cs0 =>
      let tg := takeGreedy width 0 (c0 :: cs0)
      let hl := handleLongH hyEnd width (totalLen tg.1) tg.2
      let cur := dropTrailWs (tg.1 ++ hl.1.toList)
      match cur with
      | [] => .ok []
      | _ =>
        let fitsTail :=
          match hl.2 with
          | [] => true
          | [r] => r.all isWs
          | _ => false
        if fitsTail = true ∧ totalLen cur ≤ width then .ok cur.flatten
        else .ok (shortenTruncRev width cur.reverse)

/-- Embeds `FFMPEGService._wrap_caption_text(text, max_chars)`, returning the list
of rendered lines (the Python function returns them joined with `"\n"`):
collapse whitespace; empty text yields no lines; wrap (explicitly with
`break_on_hyphens=False`); with more than two wrapped lines, keep the first
and shorten the rejoined remainder with an `"..."` placeholder (default
hyphen handling, abstracted by `split2` / `hyEnd` as in `pyShorten`).
`Except.error` models the uncaught `ValueError` raised by
`textwrap.shorten` when the placeholder cannot fit (`max_chars < 3`). -/
def wrap_caption_text (split2 : List Char → List (List Char))
    (hyEnd : List Char → ℕ → ℕ) (text : List Char) (max_chars : ℕ) :
    Except Unit (List (List Char)) :=
  match pyStrSplit text with
  | [] => .ok []
  | w :: ws =>
    let lines := pyWrap (joinSpace (w :: ws)) max_chars
    if lines.length ≤ 2 then .ok lines
    else
      match lines with
      | [] => .ok []
      | l0 :: rest =>
        (pyShorten split2 hyEnd (joinSpace rest) max_chars).map
          fun last => [l0, last]

end FFS

namespace FFS

/-! ## Wrapping lemmas -/

/-- All characters of all chunks satisfy `P`. -/
def AllChars (P : Char → Prop) (cs : List (List Char)) : Prop :=
  ∀ ch ∈ cs, ∀ c ∈ ch, P c

theorem totalLen_append (a b : List (List Char)) :
    totalLen (a ++ b) = totalLen a + totalLen b := by
  simp [totalLen]

theorem length_flatten (cs : List (List Char)) :
    cs.flatten.length = totalLen cs := by
  simp [totalLen]

theorem totalLen_sublist {a b : List (List Char)} (h : a.Sublist b) :
    totalLen a ≤ totalLen b := by
  induction h with
  | slnil => exact le_rfl
  | cons x h ih =>
    simp only [totalLen, List.map_cons, List.sum_cons] at ih ⊢
    omega
  | cons₂ x h ih =>
    simp only [totalLen, List.map_cons, List.sum_cons] at ih ⊢
    omega

theorem AllChars_sublist {P : Char → Prop} {a b : List (List Char)}
    (h : a.Sublist b) (hb : AllChars P b) : AllChars P a :=
  fun ch hch c hc => hb ch (h.mem hch) c hc

theorem takeGreedy_cons (w acc : ℕ) (c : List Char) (rest : List (List Char)) :
    takeGreedy w acc (c :: rest) =
      if acc + c.length ≤ w then
        (c :: (takeGreedy w (acc + c.length) rest).1,
          (takeGreedy w (acc + c.length) rest).2)
      else ([], c :: rest) := rfl

theorem handleLongH_cons (hyEnd : List Char → ℕ → ℕ) (w curLen : ℕ)
    (c : List Char) (rest : List (List Char)) :
    handleLongH hyEnd w curLen (c :: rest) =
      if w < c.length then
        (some (c.take (hyEnd c (if w < 1 then 1 else w - curLen))),
          c.drop (hyEnd c (if w < 1 then 1 else w - curLen)) :: rest)
      else (none, c :: rest) := rfl

theorem takeGreedy_append (w : ℕ) :
    ∀ (acc : ℕ) (cs : List (List Char)),
      (takeGreedy w acc cs).1 ++ (takeGreedy w acc cs).2 = cs := by
  intro acc cs
  induction cs generalizing acc with
  | nil => rfl
  | cons c rest ih =>
    rw [takeGreedy_cons]
    split_ifs with h
    · simp only [List.cons_append]
      rw [ih]
    · rfl

theorem takeGreedy_len (w : ℕ) :
    ∀ (acc : ℕ) (cs : List (List Char)),
      (takeGreedy w acc cs).1 = [] ∨ acc + totalLen (takeGreedy w acc cs).1 ≤ w := by
  intro acc cs
  induction cs generalizing acc with
  | nil => left; rfl
  | cons c rest ih =>
    rw [takeGreedy_cons]
    split_ifs with h
    · right
      rcases ih (acc + c.length) with h2 | h2
      · simp only [h2, totalLen, List.map_cons, List.map_nil, List.sum_cons,
          List.sum_nil]
        omega
      · simp only [totalLen, List.map_cons, List.sum_cons]
        simp only [totalLen] at h2
        omega
    · left; rfl

theorem handleLongH_piece_len {hyEnd : List Char → ℕ → ℕ}
    (hhy : ∀ ch sl, hyEnd ch sl ≤ sl) {w curLen : ℕ} (hw : 1 ≤ w)
    (hcur : curLen ≤ w) {cs : List (List Char)} {piece : List Char}
    (h : (handleLongH hyEnd w curLen cs).1 = some piece) :
    curLen + piece.length ≤ w := by
  cases cs with
  | nil => simp [handleLongH] at h
  | cons c rest =>
    rw [handleLongH_cons, if_neg (show ¬ w < 1 by omega)] at h
    split_ifs at h with hlen
    · simp only [Option.some.injEq] at h
      have h1 : piece.length ≤ hyEnd c (w - curLen) := by
        rw [← h]
        exact List.length_take_le _ _
      have h2 := hhy c (w - curLen)
      omega

theorem handleLongH_chars {hyEnd : List Char → ℕ → ℕ} {P : Char → Prop}
    {w curLen : ℕ} {cs : List (List Char)} (hcs : AllChars P cs) :
    (∀ piece, (handleLongH hyEnd w curLen cs).1 = some piece →
      ∀ c ∈ piece, P c) ∧
    AllChars P (handleLongH hyEnd w curLen cs).2 := by
  cases cs with
  | nil =>
    refine ⟨fun piece h => ?_, fun ch hch => ?_⟩
    · simp [handleLongH] at h
    · simp [handleLongH] at hch
  | cons c rest =>
    rw [handleLongH_cons]
    set n := hyEnd c (if w < 1 then 1 else w - curLen) with hn
    split_ifs with hlen
    · dsimp only
      constructor
      · intro piece h cc hcc
        simp only [Option.some.injEq] at h
        rw [← h] at hcc
        exact hcs c (by simp) cc ((List.take_sublist _ _).mem hcc)
      · intro ch hch cc hcc
        rcases List.mem_cons.1 hch with rfl | hch
        · exact hcs c (by simp) cc ((List.drop_sublist _ _).mem hcc)
        · exact hcs ch (by simp [hch]) cc hcc
    · dsimp only
      exact ⟨fun piece h => by simp at h, hcs⟩

theorem dropTrailWs_sublist (cur : List (List Char)) :
    (dropTrailWs cur).Sublist cur := by
  unfold dropTrailWs
  cases h : cur.getLast? with
  | none => exact List.Sublist.refl cur
  | some last =>
    dsimp only
    split_ifs with hws
    · exact List.dropLast_sublist cur
    · exact List.Sublist.refl cur

end FFS

namespace FFS

theorem totalLen_nil : totalLen [] = 0 := rfl

theorem totalLen_toList (e : Option (List Char)) :
    totalLen e.toList = (match e with | none => 0 | some p => p.length) := by
  cases e <;> simp [totalLen]

/-- The current line assembled by one `_wrap_chunks` iteration never exceeds
the width (for positive width): the greedy part fits by construction and
`_handle_long_word` only adds at most `space_left` characters. -/
theorem wrapLine_len_aux {w : ℕ} (hw : 1 ≤ w)
    {hyEnd : List Char → ℕ → ℕ} (hhy : ∀ ch sl, hyEnd ch sl ≤ sl)
    (cs1 : List (List Char)) :
    totalLen (dropTrailWs ((takeGreedy w 0 cs1).1 ++
      (handleLongH hyEnd w (totalLen (takeGreedy w 0 cs1).1)
        (takeGreedy w 0 cs1).2).1.toList)) ≤ w := by
  have hcur : totalLen (takeGreedy w 0 cs1).1 ≤ w := by
    rcases takeGreedy_len w 0 cs1 with h | h
    · rw [h, totalLen_nil]
      omega
    · omega
  refine le_trans (totalLen_sublist (dropTrailWs_sublist _)) ?_
  rw [totalLen_append]
  rcases he : (handleLongH hyEnd w (totalLen (takeGreedy w 0 cs1).1)
      (takeGreedy w 0 cs1).2).1 with _ | p
  · rw [show totalLen (Option.toList (none : Option (List Char))) = 0 from rfl]
    omega
  · rw [show totalLen (some p).toList = p.length by simp [totalLen]]
    have := handleLongH_piece_len hhy hw hcur he
    omega

/-- Every line emitted by `wrapStep` fits in the width (positive width;
`wrapStep` uses `break_on_hyphens=False`). -/
theorem wrapStep_line_len {w : ℕ} (hw : 1 ≤ w) {hasLines : Bool}
    {chunks : List (List Char)} {l : List Char}
    (h : (wrapStep w hasLines chunks).1 = some l) : l.length ≤ w := by
  cases chunks with
  | nil => simp [wrapStep] at h
  | cons c0 cs0 =>
    unfold wrapStep at h
    dsimp only at h
    split_ifs at h
    all_goals
      simp only [Option.some.injEq] at h
      rw [← h, length_flatten]
      exact wrapLine_len_aux hw (fun ch sl => le_rfl) _

theorem mem_toList_chars {P : Char → Prop} {e : Option (List Char)}
    (h : ∀ piece, e = some piece → ∀ c ∈ piece, P c) :
    ∀ ch ∈ e.toList, ∀ c ∈ ch, P c := by
  cases e with
  | none => intro ch hch; simp at hch
  | some p =>
    intro ch hch
    simp at hch
    rw [hch]
    exact h p rfl

theorem AllChars_append {P : Char → Prop} {a b : List (List Char)}
    (ha : AllChars P a) (hb : AllChars P b) : AllChars P (a ++ b) := by
  intro ch hch
  rcases List.mem_append.1 hch with h | h
  · exact ha ch h
  · exact hb ch h

/-- One `_wrap_chunks` iteration only rearranges characters: every character
of the assembled line and of the remaining chunks comes from the effective
chunk list.  Stated for an arbitrary long-word break oracle. -/
theorem wrapCore_chars {P : Char → Prop} {w : ℕ}
    {hyEnd : List Char → ℕ → ℕ} {cs1 : List (List Char)}
    (h1 : AllChars P cs1) :
    (∀ c ∈ (dropTrailWs ((takeGreedy w 0 cs1).1 ++
        (handleLongH hyEnd w (totalLen (takeGreedy w 0 cs1).1)
          (takeGreedy w 0 cs1).2).1.toList)).flatten, P c) ∧
    AllChars P (handleLongH hyEnd w (totalLen (takeGreedy w 0 cs1).1)
      (takeGreedy w 0 cs1).2).2 := by
  have happ := takeGreedy_append w 0 cs1
  have htg1 : AllChars P (takeGreedy w 0 cs1).1 := by
    intro ch hch
    refine h1 ch ?_
    rw [← happ]
    exact List.mem_append.2 (Or.inl hch)
  have htg2 : AllChars P (takeGreedy w 0 cs1).2 := by
    intro ch hch
    refine h1 ch ?_
    rw [← happ]
    exact List.mem_append.2 (Or.inr hch)
  have hhl := @handleLongH_chars hyEnd _ w (totalLen (takeGreedy w 0 cs1).1) _ htg2
  refine ⟨?_, hhl.2⟩
  intro c hc
  rcases List.mem_flatten.1 hc with ⟨ch, hch, hcch⟩
  exact AllChars_sublist (dropTrailWs_sublist _)
    (AllChars_append htg1 (mem_toList_chars hhl.1)) ch hch c hcch

/-- The step function only rearranges characters. -/
theorem wrapStep_chars {P : Char → Prop} {w : ℕ} {hasLines : Bool}
    {chunks : List (List Char)} (hcs : AllChars P chunks) :
    (∀ l, (wrapStep w hasLines chunks).1 = some l → ∀ c ∈ l, P c) ∧
    AllChars P (wrapStep w hasLines chunks).2 := by
  cases chunks with
  | nil =>
    refine ⟨fun l h => ?_, fun ch hch => ?_⟩
    · simp [wrapStep] at h
    · simp [wrapStep] at hch
  | cons c0 cs0 =>
    have htail : AllChars P cs0 := fun ch hch => hcs ch (by simp [hch])
    unfold wrapStep
    dsimp only
    split_ifs with hb hnil hnil
    · exact ⟨fun l h => by simp at h, (wrapCore_chars htail).2⟩
    · refine ⟨fun l h => ?_, (wrapCore_chars htail).2⟩
      simp only [Option.some.injEq] at h
      rw [← h]
      exact (wrapCore_chars htail).1
    · exact ⟨fun l h => by simp at h, (wrapCore_chars hcs).2⟩
    · refine ⟨fun l h => ?_, (wrapCore_chars hcs).2⟩
      simp only [Option.some.injEq] at h
      rw [← h]
      exact (wrapCore_chars hcs).1

end FFS

namespace FFS

/-- Every line produced by the `_wrap_chunks` loop fits in a positive
width. -/
theorem wrapChunksAux_len {w : ℕ} (hw : 1 ≤ w) :
    ∀ (fuel : ℕ) (hasLines : Bool) (chunks : List (List Char)),
      ∀ l ∈ wrapChunksAux w fuel hasLines chunks, l.length ≤ w := by
  intro fuel
  induction fuel with
  | zero => intro hasLines chunks l hl; simp [wrapChunksAux] at hl
  | succ fuel ih =>
    intro hasLines chunks l hl
    cases chunks with
    | nil => simp [wrapChunksAux] at hl
    | cons c0 cs0 =>
      unfold wrapChunksAux at hl
      rcases hs : wrapStep w hasLines (c0 :: cs0) with ⟨line, rest⟩
      rw [hs] at hl
      cases line with
      | some l0 =>
        rcases List.mem_cons.1 hl with rfl | hl
        · exact wrapStep_line_len hw (by rw [hs])
        · exact ih true rest l hl
      | none => exact ih hasLines rest l hl

/-- Every character of every line produced by the `_wrap_chunks` loop comes
from the input chunks. -/
theorem wrapChunksAux_chars {P : Char → Prop} {w : ℕ} :
    ∀ (fuel : ℕ) (hasLines : Bool) (chunks : List (List Char)),
      AllChars P chunks →
      ∀ l ∈ wrapChunksAux w fuel hasLines chunks, ∀ c ∈ l, P c := by
  intro fuel
  induction fuel with
  | zero => intro hasLines chunks _ l hl; simp [wrapChunksAux] at hl
  | succ fuel ih =>
    intro hasLines chunks hcs l hl
    cases chunks with
    | nil => simp [wrapChunksAux] at hl
    | cons c0 cs0 =>
      unfold wrapChunksAux at hl
      rcases hs : wrapStep w hasLines (c0 :: cs0) with ⟨line, rest⟩
      rw [hs] at hl
      have hstep := @wrapStep_chars P w hasLines (c0 :: cs0) hcs
      rw [hs] at hstep
      cases line with
      | some l0 =>
        rcases List.mem_cons.1 hl with rfl | hl
        · exact hstep.1 l rfl
        · exact ih true rest hstep.2 l hl
      | none => exact ih hasLines rest hstep.2 l hl

/-! ## Splitting and joining lemmas -/

theorem splitRunsAux_flatten :
    ∀ (rest : List Char) (cur : List Char) (curWs : Bool),
      (splitRunsAux cur curWs rest).flatten = cur.reverse ++ rest := by
  intro rest
  induction rest with
  | nil => intro cur curWs; simp [splitRunsAux]
  | cons c rest ih =>
    intro cur curWs
    unfold splitRunsAux
    split_ifs with h
    · rw [ih]
      simp
    · simp only [List.flatten_cons]
      rw [ih]
      simp

/-- Splitting into runs only regroups the characters of its input. -/
theorem splitRuns_flatten (s : List Char) : (splitRuns s).flatten = s := by
  cases s with
  | nil => rfl
  | cons c rest =>
    unfold splitRuns
    rw [splitRunsAux_flatten]
    rfl

theorem mem_splitRuns {s r : List Char} {c : Char} (hr : r ∈ splitRuns s)
    (hc : c ∈ r) : c ∈ s := by
  rw [← splitRuns_flatten s]
  exact List.mem_flatten.2 ⟨r, hr, hc⟩

theorem splitRunsAux_uniform :
    ∀ (rest : List Char) (cur : List Char) (curWs : Bool),
      cur ≠ [] → (∀ c ∈ cur, isWs c = curWs) →
      ∀ r ∈ splitRunsAux cur curWs rest, r ≠ [] ∧ ∃ b, ∀ c ∈ r, isWs c = b := by
  intro rest
  induction rest with
  | nil =>
    intro cur curWs hne hcur r hr
    simp only [splitRunsAux, List.mem_singleton] at hr
    subst hr
    exact ⟨by simpa using hne, curWs, fun c hc => hcur c (List.mem_reverse.1 hc)⟩
  | cons c rest ih =>
    intro cur curWs hne hcur r hr
    unfold splitRunsAux at hr
    split_ifs at hr with h
    · exact ih (c :: cur) curWs (by simp)
        (fun d hd => by
          rcases List.mem_cons.1 hd with rfl | hd
          · exact h
          · exact hcur d hd) r hr
    · rcases List.mem_cons.1 hr with rfl | hr
      · exact ⟨by simpa using hne, curWs, fun d hd => hcur d (List.mem_reverse.1 hd)⟩
      · exact ih [c] (isWs c) (by simp) (by simp) r hr

/-- Every run of `splitRuns` is nonempty and homogeneous. -/
theorem splitRuns_uniform {s r : List Char} (hr : r ∈ splitRuns s) :
    r ≠ [] ∧ ∃ b, ∀ c ∈ r, isWs c = b := by
  cases s with
  | nil => simp [splitRuns] at hr
  | cons c rest =>
    exact splitRunsAux_uniform rest [c] (isWs c) (by simp) (by simp) r hr

/-- Python `str.split()` produces only whitespace-free words. -/
theorem pyStrSplit_no_ws {s w : List Char} (hw : w ∈ pyStrSplit s) :
    ∀ c ∈ w, isWs c = false := by
  rcases List.mem_filter.1 hw with ⟨hmem, hflt⟩
  rcases splitRuns_uniform hmem with ⟨hne, b, hb⟩
  cases b with
  | false => exact hb
  | true =>
    exfalso
    simp only [Bool.not_eq_true', List.all_eq_false] at hflt
    rcases hflt with ⟨c, hc, hcws⟩
    rw [hb c hc] at hcws
    exact hcws rfl

/-- Characters of `" ".join(ws)` are spaces or characters of the words. -/
theorem mem_joinSpace {ws : List (List Char)} {c : Char}
    (h : c ∈ joinSpace ws) : c = ' ' ∨ ∃ w ∈ ws, c ∈ w := by
  induction ws with
  | nil => simp [joinSpace] at h
  | cons w ws ih =>
    cases ws with
    | nil =>
      right
      exact ⟨w, by simp, by simpa [joinSpace] using h⟩
    | cons w2 ws2 =>
      unfold joinSpace at h
      rcases List.mem_append.1 h with h | h
      · exact Or.inr ⟨w, by simp, h⟩
      · rcases List.mem_cons.1 h with rfl | h
        · exact Or.inl rfl
        · rcases ih h with h | ⟨w3, hw3, hc3⟩
          · exact Or.inl h
          · exact Or.inr ⟨w3, by simp [hw3], hc3⟩

/-- The collapsed caption text `" ".join(text.split())` contains no
newline (newlines are whitespace, so they never survive `str.split()`). -/
theorem joinSpace_split_no_nl (t : List Char) :
    ∀ c ∈ joinSpace (pyStrSplit t), c ≠ '\n' := by
  intro c hc
  rcases mem_joinSpace hc with rfl | ⟨w, hw, hcw⟩
  · decide
  · intro heq
    have := pyStrSplit_no_ws hw c hcw
    rw [heq] at this
    exact absurd this (by decide)

end FFS

namespace FFS

theorem totalLen_reverse (l : List (List Char)) :
    totalLen l.reverse = totalLen l := by
  simp [totalLen, List.sum_reverse]

/-- The `max_lines` truncation result fits in the width once the placeholder
does (`3 ≤ width`). -/
theorem shortenTruncRev_len {w : ℕ} (h3 : 3 ≤ w) :
    ∀ l : List (List Char), (shortenTruncRev w l).length ≤ w := by
  intro l
  induction l with
  | nil => simpa [shortenTruncRev] using h3
  | cons last revRest ih =>
    unfold shortenTruncRev
    split_ifs with h
    · rw [List.length_append, length_flatten, totalLen_append, totalLen_reverse]
      simp only [totalLen, List.map_cons, List.map_nil, List.sum_cons,
        List.sum_nil, List.length_cons, List.length_nil] at h ⊢
      omega
    · exact ih

theorem AllChars_reverse {P : Char → Prop} {l : List (List Char)}
    (h : AllChars P l) : AllChars P l.reverse :=
  fun ch hch => h ch (List.mem_reverse.1 hch)

/-- The `max_lines` truncation only uses line characters and the
placeholder dots. -/
theorem shortenTruncRev_chars {P : Char → Prop} {w : ℕ} (hdot : P '.') :
    ∀ l : List (List Char), AllChars P l →
      ∀ c ∈ shortenTruncRev w l, P c := by
  intro l
  induction l with
  | nil =>
    intro _ c hc
    simp only [shortenTruncRev, List.mem_cons] at hc
    rcases hc with rfl | rfl | rfl | hc
    · exact hdot
    · exact hdot
    · exact hdot
    · simp at hc
  | cons last revRest ih =>
    intro hall c hc
    unfold shortenTruncRev at hc
    split_ifs at hc with h
    · rcases List.mem_append.1 hc with hc | hc
      · rcases List.mem_flatten.1 hc with ⟨ch, hch, hcch⟩
        rcases List.mem_append.1 hch with hch | hch
        · exact hall ch (by simp [List.mem_reverse.1 hch]) c hcch
        · simp only [List.mem_singleton] at hch
          exact hall ch (by simp [hch]) c hcch
      · rcases List.mem_cons.1 hc with rfl | hc
        · exact hdot
        · rcases List.mem_cons.1 hc with rfl | hc
          · exact hdot
          · rcases List.mem_cons.1 hc with rfl | hc
            · exact hdot
            · simp at hc
    · exact ih (fun ch hch => hall ch (by simp [hch])) c hc

/-- Chunk-level character provenance for one `_wrap_chunks` iteration. -/
theorem wrapCore_cur_chars {P : Char → Prop} {w : ℕ}
    {hyEnd : List Char → ℕ → ℕ} {cs1 : List (List Char)}
    (h1 : AllChars P cs1) :
    AllChars P (dropTrailWs ((takeGreedy w 0 cs1).1 ++
      (handleLongH hyEnd w (totalLen (takeGreedy w 0 cs1).1)
        (takeGreedy w 0 cs1).2).1.toList)) := by
  have happ := takeGreedy_append w 0 cs1
  have htg1 : AllChars P (takeGreedy w 0 cs1).1 := by
    intro ch hch
    refine h1 ch ?_
    rw [← happ]
    exact List.mem_append.2 (Or.inl hch)
  have htg2 : AllChars P (takeGreedy w 0 cs1).2 := by
    intro ch hch
    refine h1 ch ?_
    rw [← happ]
    exact List.mem_append.2 (Or.inr hch)
  have hhl := @handleLongH_chars hyEnd _ w (totalLen (takeGreedy w 0 cs1).1) _ htg2
  exact AllChars_sublist (dropTrailWs_sublist _)
    (AllChars_append htg1 (mem_toList_chars hhl.1))

/-- Shortening succeeds for every
width the placeholder fits in, and its single result line fits in the width
and contains no newline. -/
theorem pyShorten_ok {split2 : List Char → List (List Char)}
    {hyEnd : List Char → ℕ → ℕ}
    (hsp : ∀ s r c, r ∈ split2 s → c ∈ r → c ∈ s)
    (t : List Char) {w : ℕ} (h3 : 3 ≤ w) :
    ∃ r, pyShorten split2 hyEnd t w = .ok r ∧ r.length ≤ w ∧
      ∀ c ∈ r, c ≠ '\n' := by
  have hw : 1 ≤ w := by omega
  unfold pyShorten
  rw [if_neg (by omega), if_neg (by omega)]
  rcases hsplit : split2 (joinSpace (pyStrSplit t)) with _ | ⟨c0, cs0⟩
  · exact ⟨[], rfl, by simp, by simp⟩
  · have hall : AllChars (· ≠ '\n') (c0 :: cs0) := by
      rw [← hsplit]
      intro ch hch c hc
      exact joinSpace_split_no_nl t c (hsp _ ch c hch hc)
    dsimp only
    rcases hcur : dropTrailWs ((takeGreedy w 0 (c0 :: cs0)).1 ++
        (handleLongH hyEnd w (totalLen (takeGreedy w 0 (c0 :: cs0)).1)
          (takeGreedy w 0 (c0 :: cs0)).2).1.toList) with _ | ⟨x, xs⟩
    · exact ⟨[], rfl, by simp, by simp⟩
    · split_ifs with hfits
      · refine ⟨(x :: xs).flatten, rfl, ?_, ?_⟩
        · rw [length_flatten]
          exact hfits.2
        · intro c hc
          rcases List.mem_flatten.1 hc with ⟨ch, hch, hcch⟩
          rw [← hcur] at hch
          exact wrapCore_cur_chars hall ch hch c hcch
      · refine ⟨shortenTruncRev w (x :: xs).reverse, rfl,
          shortenTruncRev_len h3 _, ?_⟩
        intro c hc
        refine @shortenTruncRev_chars (fun c => c ≠ '\n') w (by decide)
          (x :: xs).reverse ?_ c hc
        refine AllChars_reverse ?_
        rw [← hcur]
        exact wrapCore_cur_chars hall

end FFS

namespace FFS

/-- Claim C3 is false as stated: `_wrap_caption_text` does not return for
every `max_chars >= 1` — at `max_chars = 1` the text `"a b c"` wraps to
three lines, and the ellipsis truncation `textwrap.shorten(..., width=1,
placeholder="...")` raises `ValueError: placeholder too large for max
width`, which propagates out of `_wrap_caption_text`. -/
theorem wrap_caption_crashes_at_one :
    wrap_caption_text splitRuns (fun _ sl => sl) ['a', ' ', 'b', ' ', 'c'] 1 =
      .error () := rfl

/-- Claim C3 (amended): for every input text and every maximum column count
`n ≥ 3` (so that the `"..."` placeholder fits), `_wrap_caption_text` returns
normally with at most 2 lines, and every returned line — the
ellipsis-truncated second line included — has length at most `n` and
contains no newline.  (For `n ≤ 2` the function can instead raise
`ValueError`, see the counterexample.)  `split2`/`hyEnd` abstract the
hyphen-aware chunking of `textwrap.shorten`'s default `break_on_hyphens`;
the two hypotheses hold for the textwrap implementation. -/
theorem wrap_caption_two_lines
    (split2 : List Char → List (List Char)) (hyEnd : List Char → ℕ → ℕ)
    (hsp : ∀ s r c, r ∈ split2 s → c ∈ r → c ∈ s)
    (_hhy : ∀ ch sl, hyEnd ch sl ≤ sl)
    (text : List Char) (n : ℕ) (h3 : 3 ≤ n) :
    ∃ lines, wrap_caption_text split2 hyEnd text n = .ok lines ∧
      lines.length ≤ 2 ∧ ∀ l ∈ lines, l.length ≤ n ∧ '\n' ∉ l := by
  have hw : 1 ≤ n := by omega
  unfold wrap_caption_text
  rcases hws : pyStrSplit text with _ | ⟨w0, ws0⟩
  · exact ⟨[], rfl, by simp, by simp⟩
  · dsimp only
    have hallchunks : AllChars (· ≠ '\n') (splitRuns (joinSpace (w0 :: ws0))) := by
      intro ch hch c hc
      have hmem := mem_splitRuns hch hc
      rw [← hws] at hmem
      exact joinSpace_split_no_nl text c hmem
    have hwrapped : ∀ l ∈ pyWrap (joinSpace (w0 :: ws0)) n,
        l.length ≤ n ∧ '\n' ∉ l := by
      intro l hl
      unfold pyWrap at hl
      refine ⟨wrapChunksAux_len hw _ _ _ l hl, fun hmem => ?_⟩
      exact wrapChunksAux_chars _ _ _ hallchunks l hl '\n' hmem rfl
    split_ifs with hlen
    · exact ⟨pyWrap (joinSpace (w0 :: ws0)) n, rfl, hlen, hwrapped⟩
    · rcases hl : pyWrap (joinSpace (w0 :: ws0)) n with _ | ⟨l0, rest⟩
      · rw [hl] at hlen
        simp at hlen
      · dsimp only
        obtain ⟨r, hr, hrlen, hrchars⟩ :=
          @pyShorten_ok split2 hyEnd hsp (joinSpace rest) n h3
        rw [hr]
        refine ⟨[l0, r], rfl, by simp, ?_⟩
        intro l hlmem
        rcases List.mem_cons.1 hlmem with rfl | hlmem
        · exact hwrapped l (by rw [hl]; simp)
        · rcases List.mem_cons.1 hlmem with rfl | hlmem
          · exact ⟨hrlen, fun hmem => hrchars '\n' hmem rfl⟩
          · simp at hlmem

/-- Witness for `wrap_caption_two_lines` with the concrete simple splitter
at `text = "aa bb cc dd"`, `n = 5`. -/
theorem wrap_caption_two_lines_witness :
    ∃ lines,
      wrap_caption_text splitRuns (fun _ sl => sl)
          ['a', 'a', ' ', 'b', 'b', ' ', 'c', 'c', ' ', 'd', 'd'] 5 =
        .ok lines ∧
      lines.length ≤ 2 ∧ ∀ l ∈ lines, l.length ≤ 5 ∧ '\n' ∉ l :=
  wrap_caption_two_lines splitRuns (fun _ sl => sl)
    (fun s r c hr hc => mem_splitRuns hr hc) (fun ch sl => le_rfl)
    ['a', 'a', ' ', 'b', 'b', ' ', 'c', 'c', ' ', 'd', 'd'] 5 (by norm_num)

end FFS

namespace FFS

theorem totalLen_cons (c : List Char) (cs : List (List Char)) :
    totalLen (c :: cs) = c.length + totalLen cs := by
  simp [totalLen]

theorem takeGreedy_measure (w acc : ℕ) (cs : List (List Char)) :
    totalLen (takeGreedy w acc cs).1 + (takeGreedy w acc cs).1.length +
      (totalLen (takeGreedy w acc cs).2 + (takeGreedy w acc cs).2.length) =
    totalLen cs + cs.length := by
  have happ := takeGreedy_append w acc cs
  have h1 := congrArg totalLen happ
  have h2 := congrArg List.length happ
  rw [totalLen_append] at h1
  rw [List.length_append] at h2
  omega

theorem handleLongH_measure (hyEnd : List Char → ℕ → ℕ) (w curLen : ℕ)
    (cs : List (List Char)) :
    totalLen (handleLongH hyEnd w curLen cs).2 +
      (handleLongH hyEnd w curLen cs).2.length ≤
    totalLen cs + cs.length := by
  cases cs with
  | nil => simp [handleLongH]
  | cons c rest =>
    rw [handleLongH_cons]
    split_ifs with hlen <;>
      (dsimp only
       simp only [totalLen_cons, List.length_cons, List.length_drop]
       omega)

/-- Fuel adequacy for `wrapChunksAux`: every iteration of the `while
chunks` loop strictly decreases `totalLen chunks + chunks.length` — it
consumes at least one whole chunk or at least one character — so the fuel
chosen in `pyWrap` runs the Python loop to completion. -/
theorem wrapStep_measure {w : ℕ} {hasLines : Bool} {c0 : List Char}
    {cs0 : List (List Char)} :
    totalLen (wrapStep w hasLines (c0 :: cs0)).2 +
      (wrapStep w hasLines (c0 :: cs0)).2.length <
    totalLen (c0 :: cs0) + (c0 :: cs0).length := by
  unfold wrapStep
  dsimp only
  split_ifs with hb
  · have h1 := handleLongH_measure (fun _ sl => sl) w
      (totalLen (takeGreedy w 0 cs0).1) (takeGreedy w 0 cs0).2
    have h2 := takeGreedy_measure w 0 cs0
    rw [totalLen_cons, List.length_cons]
    unfold handleLong
    omega
  · rcases htg : (takeGreedy w 0 (c0 :: cs0)).1 with _ | ⟨t0, ts⟩
    · have hlen : w < c0.length := by
        rw [takeGreedy_cons] at htg
        split_ifs at htg with hfit
        omega
      have htg2 : (takeGreedy w 0 (c0 :: cs0)).2 = c0 :: cs0 := by
        have happ := takeGreedy_append w 0 (c0 :: cs0)
        rw [htg] at happ
        simpa using happ
      unfold handleLong
      rw [htg2, totalLen_nil, handleLongH_cons, if_pos hlen]
      dsimp only
      rw [totalLen_cons, totalLen_cons, List.length_cons, List.length_cons,
        List.length_drop]
      have he : 1 ≤ (if w < 1 then 1 else w - 0) := by
        split_ifs <;> omega
      omega
    · have h2 := takeGreedy_measure w 0 (c0 :: cs0)
      rw [htg] at h2
      have h1 := handleLongH_measure (fun _ sl => sl) w (totalLen (t0 :: ts))
        (takeGreedy w 0 (c0 :: cs0)).2
      unfold handleLong
      have h3 : 1 ≤ (t0 :: ts).length := by simp
      omega

end FFS
